import Mathlib

/-!
Shallow embedding of the go-bip39 mnemonic codec (bip39_mnemonic.go) and the
standard-library primitives it calls, together with proofs of its key
specification properties.

Go strings are modelled as `List Char`, Go byte slices as `List Nat` whose
elements are kept below 256 (the `byte` type), Go errors as an explicit
`Except Err` result.  The English wordlist asset is not among the provided
sources, so functions take it as an explicit parameter constrained by the
spec's wordlist contract (see `WordlistSpec`).
-/

set_option maxRecDepth 100000

namespace Bip39

/-- The character a single bit prints as ('1' for a set bit, '0' otherwise). -/
def bitChar (b : Bool) : Char := if b then '1' else '0'

/-- Minimum-width-`w` binary rendering of `n`, most significant bit first.
Models Go's fmt verb "%.wb" on arguments known to be below 2 ^ w (bytes for
w = 8, word indices below 2048 for w = 11), where the padded width is exact. -/
def natBits : Nat → Nat → List Char
  | 0, _ => []
  | w + 1, n => bitChar (n.testBit w) :: natBits w n

/-- The unsigned integer a binary-digit string denotes, most significant
digit first. -/
def bitsToNat (s : List Char) : Nat :=
  s.foldl (fun acc c => 2 * acc + (if c = '1' then 1 else 0)) 0

/-- One binary digit of strconv's integer parser. -/
def binDigit (c : Char) : Option Nat :=
  if c = '0' then some 0 else if c = '1' then some 1 else none

/-- Digit loop of strconv.ParseUint for base 2: fails on an empty digit string
or on any character that is not a binary digit. -/
def parseBinAux (acc : Nat) : List Char → Option Nat
  | [] => some acc
  | c :: cs =>
    match binDigit c with
    | none => none
    | some d => parseBinAux (2 * acc + d) cs

/-- strconv.ParseUint of a base-2 digit string (no sign, no prefix). -/
def parseBinDigits (s : List Char) : Option Nat :=
  if s.isEmpty then none else parseBinAux 0 s

/-- Models strconv.ParseInt(s, 2, 16): an optional sign followed by base-2
digits, with the int16 range check.  `none` stands for a non-nil error. -/
def parseIntBin16 (s : List Char) : Option Int :=
  match s with
  | '+' :: rest => (parseBinDigits rest).bind fun n =>
      if (n : Int) ≤ 32767 then some (n : Int) else none
  | '-' :: rest => (parseBinDigits rest).bind fun n =>
      if -(n : Int) ≥ -32768 then some (-(n : Int)) else none
  | _ => (parseBinDigits s).bind fun n =>
      if (n : Int) ≤ 32767 then some (n : Int) else none

/-- Trial-division primality test, used to list the primes whose roots seed
the SHA-2 constant tables (FIPS 180-4 section 4.2). -/
def isPrime (n : Nat) : Bool :=
  decide (2 ≤ n) && (List.range n).all fun d => decide (d < 2) || decide (n % d ≠ 0)

/-- The first `n` prime numbers (enough are below 410 for SHA-2's 80 rounds). -/
def firstPrimes (n : Nat) : List Nat :=
  ((List.range 410).filter isPrime).take n

/-- Fueled binary search for the integer cube root (largest k with k ^ 3 ≤ n),
on the invariant lo ^ 3 ≤ n < hi ^ 3. -/
def icbrtAux (n : Nat) : Nat → Nat → Nat → Nat
  | 0, lo, _ => lo
  | fuel + 1, lo, hi =>
    if lo + 1 < hi then
      let mid := (lo + hi) / 2
      if mid ^ 3 ≤ n then icbrtAux n fuel mid hi else icbrtAux n fuel lo mid
    else lo

/-- Integer cube root, correct for n < (2 ^ 70) ^ 3 (ample for the constant
derivation, whose arguments stay below 2 ^ 201). -/
def icbrt (n : Nat) : Nat := icbrtAux n 100 0 (2 ^ 70)

/-- Fueled binary search for the integer square root (largest k with
k ^ 2 ≤ n), on the invariant lo ^ 2 ≤ n < hi ^ 2. -/
def isqrtAux (n : Nat) : Nat → Nat → Nat → Nat
  | 0, lo, _ => lo
  | fuel + 1, lo, hi =>
    if lo + 1 < hi then
      let mid := (lo + hi) / 2
      if mid ^ 2 ≤ n then isqrtAux n fuel mid hi else isqrtAux n fuel lo mid
    else lo

/-- Integer square root, correct for n < (2 ^ 70) ^ 2 (the constant
derivation's arguments stay below 2 ^ 133). -/
def isqrt (n : Nat) : Nat := isqrtAux n 100 0 (2 ^ 70)

/-- First 32 fractional bits of the square root of `p` (FIPS 180-4 initial
hash values). -/
def sqrtFrac32 (p : Nat) : Nat := isqrt (p * 2 ^ 64) % 2 ^ 32

/-- First 32 fractional bits of the cube root of `p` (FIPS 180-4 round
constants). -/
def cbrtFrac32 (p : Nat) : Nat := icbrt (p * 2 ^ 96) % 2 ^ 32

/-- First 64 fractional bits of the square root of `p`. -/
def sqrtFrac64 (p : Nat) : Nat := isqrt (p * 2 ^ 128) % 2 ^ 64

/-- First 64 fractional bits of the cube root of `p`. -/
def cbrtFrac64 (p : Nat) : Nat := icbrt (p * 2 ^ 192) % 2 ^ 64

/-- The 64 SHA-256 round constants: the first 32 fractional bits of the cube
roots of the first 64 primes (FIPS 180-4 section 4.2.2). -/
def K256 : List Nat := (firstPrimes 64).map cbrtFrac32

/-- The 80 SHA-512 round constants: the first 64 fractional bits of the cube
roots of the first 80 primes (FIPS 180-4 section 4.2.3). -/
def K512 : List Nat := (firstPrimes 80).map cbrtFrac64

/-- Working state of the SHA-2 compression function. -/
structure Sha2St where
  a : Nat
  b : Nat
  c : Nat
  d : Nat
  e : Nat
  f : Nat
  g : Nat
  h : Nat
deriving DecidableEq

/-- SHA-256 initial hash value: the first 32 fractional bits of the square
roots of the first 8 primes (FIPS 180-4 section 5.3.3). -/
def H256 : Sha2St :=
  { a := sqrtFrac32 2, b := sqrtFrac32 3, c := sqrtFrac32 5, d := sqrtFrac32 7
    e := sqrtFrac32 11, f := sqrtFrac32 13, g := sqrtFrac32 17, h := sqrtFrac32 19 }

/-- SHA-512 initial hash value: the first 64 fractional bits of the square
roots of the first 8 primes (FIPS 180-4 section 5.3.5). -/
def H512 : Sha2St :=
  { a := sqrtFrac64 2, b := sqrtFrac64 3, c := sqrtFrac64 5, d := sqrtFrac64 7
    e := sqrtFrac64 11, f := sqrtFrac64 13, g := sqrtFrac64 17, h := sqrtFrac64 19 }

/-- Addition modulo 2 ^ w. -/
def addW (w a b : Nat) : Nat := (a + b) % 2 ^ w

/-- Right rotation of a w-bit word. -/
def rotrW (w n x : Nat) : Nat := ((x >>> n) ||| (x <<< (w - n))) % 2 ^ w

/-- Bitwise complement of a w-bit word. -/
def notW (w x : Nat) : Nat := x ^^^ (2 ^ w - 1)

/-- Big-endian byte rendering of `v`, `k` bytes wide. -/
def beBytes : Nat → Nat → List Nat
  | 0, _ => []
  | k + 1, v => (v >>> (8 * k)) % 256 :: beBytes k v

/-- SHA-256 message padding: a 1 bit, zeros to 56 mod 64 bytes, then the
bit length as 8 big-endian bytes. -/
def sha256Pad (msg : List Nat) : List Nat :=
  msg ++ 0x80 :: List.replicate ((119 - msg.length % 64) % 64) 0
    ++ beBytes 8 (8 * msg.length)

/-- SHA-512 message padding: a 1 bit, zeros to 112 mod 128 bytes, then the
bit length as 16 big-endian bytes. -/
def sha512Pad (msg : List Nat) : List Nat :=
  msg ++ 0x80 :: List.replicate ((239 - msg.length % 128) % 128) 0
    ++ beBytes 16 (8 * msg.length)

/-- Group bytes into big-endian 32-bit words. -/
def toWords32 : List Nat → List Nat
  | b0 :: b1 :: b2 :: b3 :: rest =>
    (((b0 * 256 + b1) * 256 + b2) * 256 + b3) :: toWords32 rest
  | _ => []

/-- Group bytes into big-endian 64-bit words. -/
def toWords64 : List Nat → List Nat
  | b0 :: b1 :: b2 :: b3 :: b4 :: b5 :: b6 :: b7 :: rest =>
    (((((((b0 * 256 + b1) * 256 + b2) * 256 + b3) * 256 + b4) * 256 + b5) * 256
      + b6) * 256 + b7) :: toWords64 rest
  | _ => []

/-- SHA-256 small sigma 0. -/
def ssig0 (x : Nat) : Nat := rotrW 32 7 x ^^^ rotrW 32 18 x ^^^ (x >>> 3)

/-- SHA-256 small sigma 1. -/
def ssig1 (x : Nat) : Nat := rotrW 32 17 x ^^^ rotrW 32 19 x ^^^ (x >>> 10)

/-- SHA-256 big sigma 0. -/
def bsig0 (x : Nat) : Nat := rotrW 32 2 x ^^^ rotrW 32 13 x ^^^ rotrW 32 22 x

/-- SHA-256 big sigma 1. -/
def bsig1 (x : Nat) : Nat := rotrW 32 6 x ^^^ rotrW 32 11 x ^^^ rotrW 32 25 x

/-- SHA-512 small sigma 0. -/
def ssig0w (x : Nat) : Nat := rotrW 64 1 x ^^^ rotrW 64 8 x ^^^ (x >>> 7)

/-- SHA-512 small sigma 1. -/
def ssig1w (x : Nat) : Nat := rotrW 64 19 x ^^^ rotrW 64 61 x ^^^ (x >>> 6)

/-- SHA-512 big sigma 0. -/
def bsig0w (x : Nat) : Nat := rotrW 64 28 x ^^^ rotrW 64 34 x ^^^ rotrW 64 39 x

/-- SHA-512 big sigma 1. -/
def bsig1w (x : Nat) : Nat := rotrW 64 14 x ^^^ rotrW 64 18 x ^^^ rotrW 64 41 x

/-- Message-schedule extension, on the reversed schedule (newest word first):
appends words W[t] = ssig1 W[t-2] + W[t-7] + ssig0 W[t-15] + W[t-16]. -/
def schedExtend (w : Nat) (s1 s0 : Nat → Nat) : List Nat → Nat → List Nat
  | rev, 0 => rev
  | rev, t + 1 =>
    let r := schedExtend w s1 s0 rev t
    addW w (addW w (s1 (r.getD 1 0)) (r.getD 6 0))
      (addW w (s0 (r.getD 14 0)) (r.getD 15 0)) :: r

/-- One SHA-2 compression round at word width `w`. -/
def sha2Round (w : Nat) (bs1 ch0 : Nat → Nat) (st : Sha2St) (kw : Nat × Nat) :
    Sha2St :=
  let s1 := bs1 st.e
  let ch := (st.e &&& st.f) ^^^ (notW w st.e &&& st.g)
  let t1 := addW w st.h (addW w s1 (addW w ch (addW w kw.1 kw.2)))
  let s0 := ch0 st.a
  let mj := (st.a &&& st.b) ^^^ (st.a &&& st.c) ^^^ (st.b &&& st.c)
  let t2 := addW w s0 mj
  { a := addW w t1 t2, b := st.a, c := st.b, d := st.c
    e := addW w st.d t1, f := st.e, g := st.f, h := st.g }

/-- SHA-256 compression of one 64-byte block into the chaining state. -/
def sha256Compress (st : Sha2St) (block : List Nat) : Sha2St :=
  let sched := (schedExtend 32 ssig1 ssig0 (toWords32 block).reverse 48).reverse
  let fin := (K256.zip sched).foldl (sha2Round 32 bsig1 bsig0) st
  { a := addW 32 st.a fin.a, b := addW 32 st.b fin.b, c := addW 32 st.c fin.c
    d := addW 32 st.d fin.d, e := addW 32 st.e fin.e, f := addW 32 st.f fin.f
    g := addW 32 st.g fin.g, h := addW 32 st.h fin.h }

/-- SHA-512 compression of one 128-byte block into the chaining state. -/
def sha512Compress (st : Sha2St) (block : List Nat) : Sha2St :=
  let sched := (schedExtend 64 ssig1w ssig0w (toWords64 block).reverse 64).reverse
  let fin := (K512.zip sched).foldl (sha2Round 64 bsig1w bsig0w) st
  { a := addW 64 st.a fin.a, b := addW 64 st.b fin.b, c := addW 64 st.c fin.c
    d := addW 64 st.d fin.d, e := addW 64 st.e fin.e, f := addW 64 st.f fin.f
    g := addW 64 st.g fin.g, h := addW 64 st.h fin.h }

/-- Fold the SHA-256 compression function over consecutive 64-byte blocks.
The fuel argument makes the recursion structural; every block consumes at
least one byte, so fuel at least the byte count never runs out. -/
def sha256BlocksGo (fuel : Nat) (st : Sha2St) : List Nat → Sha2St
  | [] => st
  | b :: rest =>
    match fuel with
    | 0 => st
    | fuel + 1 =>
      sha256BlocksGo fuel (sha256Compress st ((b :: rest).take 64)) ((b :: rest).drop 64)

/-- SHA-256 block iteration, with enough fuel for all of `bytes`. -/
def sha256Blocks (st : Sha2St) (bytes : List Nat) : Sha2St :=
  sha256BlocksGo bytes.length st bytes

/-- Fold the SHA-512 compression function over consecutive 128-byte blocks,
fueled like sha256BlocksGo. -/
def sha512BlocksGo (fuel : Nat) (st : Sha2St) : List Nat → Sha2St
  | [] => st
  | b :: rest =>
    match fuel with
    | 0 => st
    | fuel + 1 =>
      sha512BlocksGo fuel (sha512Compress st ((b :: rest).take 128)) ((b :: rest).drop 128)

/-- SHA-512 block iteration, with enough fuel for all of `bytes`. -/
def sha512Blocks (st : Sha2St) (bytes : List Nat) : Sha2St :=
  sha512BlocksGo bytes.length st bytes

/-- The eight state words in output order. -/
def sha2StWords (st : Sha2St) : List Nat :=
  [st.a, st.b, st.c, st.d, st.e, st.f, st.g, st.h]

/-- SHA-256 of a byte sequence (crypto/sha256.Sum256). -/
def sha256 (msg : List Nat) : List Nat :=
  (sha2StWords (sha256Blocks H256 (sha256Pad msg))).flatMap (beBytes 4)

/-- SHA-512 of a byte sequence (crypto/sha512's digest). -/
def sha512 (msg : List Nat) : List Nat :=
  (sha2StWords (sha512Blocks H512 (sha512Pad msg))).flatMap (beBytes 8)

/-- HMAC-SHA512 (crypto/hmac with sha512.New): key padded or hashed to the
128-byte block size, inner and outer pads 0x36 and 0x5c. -/
def hmacSha512 (key msg : List Nat) : List Nat :=
  let k0 := if 128 < key.length then sha512 key else key
  let kp := k0 ++ List.replicate (128 - k0.length) 0
  sha512 ((kp.map (fun b => b ^^^ 0x5c)) ++ sha512 ((kp.map (fun b => b ^^^ 0x36)) ++ msg))

/-- The running xor accumulator and chaining value of one PBKDF2 block:
iterates U := PRF(password, U), xoring each U into T. -/
def pbkdf2Iter (password : List Nat) : List Nat × List Nat → Nat → List Nat × List Nat
  | tu, 0 => tu
  | tu, n + 1 =>
    let u := hmacSha512 password tu.2
    pbkdf2Iter password (tu.1.zipWith (· ^^^ ·) u, u) n

/-- One PBKDF2 output block T_i = U_1 xor ... xor U_iter, with
U_1 = PRF(password, salt || INT_32_BE(i)). -/
def pbkdf2Block (password salt : List Nat) (iter i : Nat) : List Nat :=
  let u1 := hmacSha512 password (salt ++ beBytes 4 i)
  (pbkdf2Iter password (u1, u1) (iter - 1)).1

/-- PBKDF2 with HMAC-SHA512 (golang.org/x/crypto/pbkdf2.Key with sha512.New):
concatenates ceil(keyLen / 64) blocks and truncates to keyLen bytes. -/
def pbkdf2HmacSha512 (password salt : List Nat) (iter keyLen : Nat) : List Nat :=
  (((List.range ((keyLen + 63) / 64)).map
    (fun b => pbkdf2Block password salt iter (b + 1))).flatten).take keyLen

/-- UTF-8 encoding of one character (what Go's []byte(string) emits). -/
def utf8Char (c : Char) : List Nat :=
  let n := c.toNat
  if n < 0x80 then [n]
  else if n < 0x800 then [0xC0 ||| (n >>> 6), 0x80 ||| (n &&& 0x3F)]
  else if n < 0x10000 then
    [0xE0 ||| (n >>> 12), 0x80 ||| ((n >>> 6) &&& 0x3F), 0x80 ||| (n &&& 0x3F)]
  else
    [0xF0 ||| (n >>> 18), 0x80 ||| ((n >>> 12) &&& 0x3F),
     0x80 ||| ((n >>> 6) &&& 0x3F), 0x80 ||| (n &&& 0x3F)]

/-- UTF-8 encoding of a string, modelling Go's []byte(s) conversion. -/
def utf8Bytes (s : List Char) : List Nat := s.flatMap utf8Char

/-- The error values of the package: ErrWordsNum, ErrInvalidWord, ErrChecksum,
ErrBinaryString, the spec's InvalidEntropyLength, and a strconv parse error
(a distinct error value produced inside binaryStringToBytes). -/
inductive Err where
  | wordsNum
  | invalidWord
  | checksum
  | binaryString
  | entropyLen
  | strconvError
deriving DecidableEq

/-- Go's strings.Split(s, " "): the substrings between the space separators;
an empty string yields one empty field. -/
def splitOnSpace : List Char → List (List Char)
  | [] => [[]]
  | c :: rest =>
    if c = ' ' then [] :: splitOnSpace rest
    else
      match splitOnSpace rest with
      | [] => [[c]]
      | w :: ws => (c :: w) :: ws

/-- Go's strings.Join(words, " "): the words separated by single spaces. -/
def joinWords : List (List Char) → List Char
  | [] => []
  | [w] => w
  | w :: ws => w ++ ' ' :: joinWords ws

/-- Go's byte-wise lexicographic string order (s < t), on characters; UTF-8
byte order coincides with code-point order. -/
def lexLt : List Char → List Char → Bool
  | _, [] => false
  | [], _ :: _ => true
  | a :: as, b :: bs =>
    if a.toNat < b.toNat then true
    else if b.toNat < a.toNat then false
    else lexLt as bs

/-- The loop of Go's sort.Search, fueled to make the recursion structural:
each step shrinks the interval, so fuel at least j - i never runs out. -/
def searchLoopGo (f : Nat → Bool) : Nat → Nat → Nat → Nat
  | 0, i, _ => i
  | fuel + 1, i, j =>
    if i < j then
      let m := (i + j) / 2
      if f m then searchLoopGo f fuel i m else searchLoopGo f fuel (m + 1) j
    else i

/-- The loop of Go's sort.Search: the smallest index in [i, j] at which `f`
holds, for a monotone `f` (false then true). -/
def searchLoop (f : Nat → Bool) (i j : Nat) : Nat :=
  searchLoopGo f (j - i) i j

/-- Go's sort.SearchStrings(slice, elem): the insertion point of elem, i.e.
sort.Search over the predicate !(slice[i] < elem). -/
def sortSearchStrings (slice : List (List Char)) (elem : List Char) : Nat :=
  searchLoop (fun i => ! lexLt (slice.getD i []) elem) 0 slice.length

/-- stringBinarySearch from the source: the index of elem in slice, or
`none` where Go returns -1. -/
def stringBinarySearch (slice : List (List Char)) (elem : List Char) : Option Nat :=
  let idx := sortSearchStrings slice elem
  if idx ≠ slice.length ∧ slice.getD idx [] = elem then some idx else none

/-- validateWordsNum from the source: the wordsNumMap lookup is true exactly
on the five supported counts. -/
def wordsNumValid (n : Nat) : Bool :=
  n = 12 || n = 15 || n = 18 || n = 21 || n = 24

/-- Modelled from the spec: validateEntropyBitLen is defined in a source file
not provided (only its call site is); the spec requires the entropy bit
length to be one of the five standardized values. -/
def validateEntropyBitLen (bitLen : Nat) : Bool :=
  bitLen = 128 || bitLen = 160 || bitLen = 192 || bitLen = 224 || bitLen = 256

/-- bytesToBinaryString from the source: each byte printed as 8 binary
characters ("%.8b"), most significant bit first, concatenated. -/
def bytesToBinaryString (slice : List Nat) : List Char :=
  slice.flatMap fun b => natBits 8 (b % 256)

/-- Loop body of binaryStringToBytes, fueled to make the recursion
structural (each step consumes at least one character): parse each
8-character group with strconv.ParseInt(_, 2, 16) and truncate the value to
a byte. -/
def binToBytesGo : Nat → List Char → Except Err (List Nat)
  | _, [] => .ok []
  | 0, _ :: _ => .ok []
  | fuel + 1, c :: rest =>
    match parseIntBin16 ((c :: rest).take 8) with
    | none => .error .strconvError
    | some v => (binToBytesGo fuel ((c :: rest).drop 8)).map
        (fun slice => (v % 256).toNat :: slice)

/-- Loop body of binaryStringToBytes, with enough fuel for all of `s`. -/
def binToBytesLoop (s : List Char) : Except Err (List Nat) :=
  binToBytesGo s.length s

/-- binaryStringToBytes from the source: rejects lengths that are not a
multiple of 8 with ErrBinaryString, then converts 8 characters per byte. -/
def binaryStringToBytes (binStr : List Char) : Except Err (List Nat) :=
  if binStr.length % 8 ≠ 0 then .error .binaryString else binToBytesLoop binStr

/-- entropyChecksumBinStr from the source: the first len(slice)/4 characters
of the binary rendering of SHA-256(slice).  (Go slices the 256-character hash
string, which requires len(slice)/4 ≤ 256; every caller passes at most 32
bytes.) -/
def entropyChecksumBinStr (slice : List Nat) : List Char :=
  (bytesToBinaryString (sha256 slice)).take (slice.length / 4)

/-- MnemonicFromEntropy from the source: entropy bits plus checksum bits,
cut into 11-character groups, each parsed as an index into the wordlist, the
words joined by single spaces.  The wordlist stands for the missing
wordsListEn asset. -/
def mnemonicFromEntropy (wl : List (List Char)) (entropy : List Nat) :
    Except Err (List Char) :=
  if validateEntropyBitLen (entropy.length * 8) then
    let mnemonicBinStr := bytesToBinaryString entropy ++ entropyChecksumBinStr entropy
    let mnemonicLen := mnemonicBinStr.length / 11
    let mnemonic := (List.range mnemonicLen).map fun i =>
      wl.getD ((parseIntBin16 ((mnemonicBinStr.drop (i * 11)).take 11)).getD 0).toNat []
    .ok (joinWords mnemonic)
  else .error .entropyLen

/-- The word loop of getBinaryStrings: look each word up by binary search,
aborting with ErrInvalidWord on a miss, and append its index printed as 11
binary characters ("%.11b", exact since indices are below 2048). -/
def wordsBits (wl : List (List Char)) : List (List Char) → Except Err (List Char)
  | [] => .ok []
  | w :: ws =>
    match stringBinarySearch wl w with
    | none => .error .invalidWord
    | some idx => (wordsBits wl ws).map (fun rest => natBits 11 idx ++ rest)

/-- getBinaryStrings from the source: split the words on spaces, validate the
count, rebuild the bit string, and split it before the trailing
length/33 checksum characters. -/
def getBinaryStrings (wl : List (List Char)) (words : List Char) :
    Except Err (List Char × List Char) :=
  let wordsList := splitOnSpace words
  if wordsNumValid wordsList.length then
    (wordsBits wl wordsList).map fun mnemonicBinStr =>
      let chksumLen := mnemonicBinStr.length / 33
      let chksumIdx := mnemonicBinStr.length - chksumLen
      (mnemonicBinStr.take chksumIdx, mnemonicBinStr.drop chksumIdx)
  else .error .wordsNum

/-- ToEntropy from the source: decode the binary strings, convert the entropy
part to bytes (its error ignored, yielding nil on failure), and compare the
recomputed checksum. -/
def toEntropy (wl : List (List Char)) (words : List Char) :
    Except Err (List Nat) :=
  match getBinaryStrings wl words with
  | .error e => .error e
  | .ok (entropyBinStr, chksumBinStr) =>
    let entropy := match binaryStringToBytes entropyBinStr with
      | .ok v => v
      | .error _ => []
    if entropyChecksumBinStr entropy ≠ chksumBinStr then .error .checksum
    else .ok entropy

/-- Validate from the source: same checks as ToEntropy, discarding the
entropy. -/
def validate (wl : List (List Char)) (words : List Char) : Except Err Unit :=
  match getBinaryStrings wl words with
  | .error e => .error e
  | .ok (entropyBinStr, chksumBinStr) =>
    let entropy := match binaryStringToBytes entropyBinStr with
      | .ok v => v
      | .error _ => []
    if entropyChecksumBinStr entropy ≠ chksumBinStr then .error .checksum
    else .ok ()

/-- The seed salt modifier constant "mnemonic". -/
def seedSaltMod : List Char := ['m', 'n', 'e', 'm', 'o', 'n', 'i', 'c']

/-- GenerateSeed from the source: validate, then PBKDF2-HMAC-SHA512 with the
mnemonic text as password, "mnemonic" ++ passphrase as salt, 2048 rounds and
64 output bytes. -/
def generateSeed (wl : List (List Char)) (words passphrase : List Char) :
    Except Err (List Nat) :=
  match validate wl words with
  | .error e => .error e
  | .ok _ =>
    .ok (pbkdf2HmacSha512 (utf8Bytes words)
      (utf8Bytes (seedSaltMod ++ passphrase)) 2048 64)

/-- Modelled from the spec: the wordlist contract for the missing wordsListEn
asset — 2048 words, sorted ascending with no duplicates (strict order), one
word per line with no blank lines (so words are nonempty and contain no
space). -/
def WordlistSpec (wl : List (List Char)) : Prop :=
  wl.length = 2048 ∧ List.Chain' (fun a b => lexLt a b = true) wl ∧
    ∀ w ∈ wl, w ≠ [] ∧ ' ' ∉ w

/-- A concrete wordlist satisfying the spec's wordlist contract, used to
instantiate witnesses: word i is the 11-character binary rendering of i. -/
def stdWl : List (List Char) := (List.range 2048).map (natBits 11)

instance instDecEqExcept {ε α : Type} [DecidableEq ε] [DecidableEq α] :
    DecidableEq (Except ε α) := fun x y =>
  match x, y with
  | .ok a, .ok b =>
    if h : a = b then isTrue (by rw [h]) else isFalse (fun hc => h (Except.ok.inj hc))
  | .ok _, .error _ => isFalse (fun hc => Except.noConfusion hc)
  | .error _, .ok _ => isFalse (fun hc => Except.noConfusion hc)
  | .error e, .error e2 =>
    if h : e = e2 then isTrue (by rw [h]) else isFalse (fun hc => h (Except.error.inj hc))

instance instDecWordlistSpec (wl : List (List Char)) : Decidable (WordlistSpec wl) := by
  unfold WordlistSpec
  infer_instance

/-- A character is a binary digit. -/
def IsBin (c : Char) : Prop := c = '0' ∨ c = '1'

instance instDecIsBin (c : Char) : Decidable (IsBin c) := by
  unfold IsBin
  infer_instance

theorem natBits_length (w n : Nat) : (natBits w n).length = w := by
  induction w generalizing n with
  | zero => rfl
  | succ w ih => simp [natBits, ih]

theorem natBits_binary (w n : Nat) : ∀ c ∈ natBits w n, IsBin c := by
  induction w generalizing n with
  | zero => simp [natBits]
  | succ w ih =>
    intro c hc
    rcases List.mem_cons.mp hc with h | h
    · cases hb : n.testBit w <;> simp [h, bitChar, hb, IsBin]
    · exact ih n c h

theorem bitsToNat_foldl (s : List Char) :
    ∀ acc, s.foldl (fun acc c => 2 * acc + (if c = '1' then 1 else 0)) acc
      = acc * 2 ^ s.length + bitsToNat s := by
  induction s with
  | nil => intro acc; simp [bitsToNat]
  | cons c s ih =>
    intro acc
    have h1 := ih (2 * acc + (if c = '1' then 1 else 0))
    have h2 := ih (2 * 0 + (if c = '1' then 1 else 0))
    simp only [bitsToNat, List.foldl_cons] at *
    rw [h1, h2]
    simp only [List.length_cons]
    ring

theorem bitsToNat_cons (c : Char) (s : List Char) :
    bitsToNat (c :: s) = (if c = '1' then 1 else 0) * 2 ^ s.length + bitsToNat s := by
  have h := bitsToNat_foldl s (2 * 0 + (if c = '1' then 1 else 0))
  simp only [bitsToNat, List.foldl_cons] at *
  rw [h]
  ring

theorem bitsToNat_lt (s : List Char) : bitsToNat s < 2 ^ s.length := by
  induction s with
  | nil => simp [bitsToNat]
  | cons c s ih =>
    rw [bitsToNat_cons]
    have : (if c = '1' then 1 else 0) ≤ 1 := by split <;> omega
    simp only [List.length_cons, pow_succ]
    nlinarith

theorem parseBinAux_binary (s : List Char) (hs : ∀ c ∈ s, IsBin c) :
    ∀ acc, parseBinAux acc s = some (acc * 2 ^ s.length + bitsToNat s) := by
  induction s with
  | nil => intro acc; simp [parseBinAux, bitsToNat]
  | cons c s ih =>
    intro acc
    have hrest : ∀ x ∈ s, IsBin x := fun x hx => hs x (List.mem_cons_of_mem c hx)
    rcases hs c (List.mem_cons_self c s) with h | h <;> subst h
    · have e : parseBinAux acc ('0' :: s) = parseBinAux (2 * acc + 0) s := rfl
      rw [e, ih hrest, bitsToNat_cons, if_neg (by decide : ¬ ('0' : Char) = '1')]
      simp only [List.length_cons, Option.some.injEq]
      ring
    · have e : parseBinAux acc ('1' :: s) = parseBinAux (2 * acc + 1) s := rfl
      rw [e, ih hrest, bitsToNat_cons, if_pos rfl]
      simp only [List.length_cons, Option.some.injEq]
      ring

theorem parseBinDigits_binary (s : List Char) (hne : s ≠ [])
    (hs : ∀ c ∈ s, IsBin c) : parseBinDigits s = some (bitsToNat s) := by
  have := parseBinAux_binary s hs 0
  simp only [parseBinDigits, List.isEmpty_eq_true, hne, if_false, this, zero_mul,
    zero_add]

theorem parseIntBin16_binary (s : List Char) (hne : s ≠ [])
    (hlen : s.length ≤ 11) (hs : ∀ c ∈ s, IsBin c) :
    parseIntBin16 s = some (bitsToNat s : Int) := by
  have hval : bitsToNat s < 2048 := by
    have h1 := bitsToNat_lt s
    have h2 : (2 : Nat) ^ s.length ≤ 2 ^ 11 := Nat.pow_le_pow_right (by omega) hlen
    omega
  have hdig := parseBinDigits_binary s hne hs
  cases s with
  | nil => exact absurd rfl hne
  | cons c rest =>
    rcases hs c (List.mem_cons_self c rest) with h | h <;> subst h
    · have e : parseIntBin16 ('0' :: rest) = (parseBinDigits ('0' :: rest)).bind
          fun n => if (n : Int) ≤ 32767 then some (n : Int) else none := rfl
      rw [e, hdig]
      show (if ((bitsToNat ('0' :: rest) : Int)) ≤ 32767
        then some ((bitsToNat ('0' :: rest) : Int)) else none) = _
      rw [if_pos (by omega)]
    · have e : parseIntBin16 ('1' :: rest) = (parseBinDigits ('1' :: rest)).bind
          fun n => if (n : Int) ≤ 32767 then some (n : Int) else none := rfl
      rw [e, hdig]
      show (if ((bitsToNat ('1' :: rest) : Int)) ≤ 32767
        then some ((bitsToNat ('1' :: rest) : Int)) else none) = _
      rw [if_pos (by omega)]

theorem natBits_congr (w : Nat) (m n : Nat)
    (h : ∀ j < w, m.testBit j = n.testBit j) : natBits w m = natBits w n := by
  induction w with
  | zero => rfl
  | succ w ih =>
    simp only [natBits, h w (Nat.lt_succ_self w)]
    rw [ih fun j hj => h j (Nat.lt_succ_of_lt hj)]

theorem natBits_bitsToNat (s : List Char) (hs : ∀ c ∈ s, IsBin c) :
    natBits s.length (bitsToNat s) = s := by
  induction s with
  | nil => rfl
  | cons c rest ih =>
    have hc : IsBin c := hs c (List.mem_cons_self c rest)
    have hrest : ∀ x ∈ rest, IsBin x := fun x hx => hs x (List.mem_cons_of_mem c hx)
    have hr := bitsToNat_lt rest
    set d : Nat := if c = '1' then 1 else 0 with hd
    have hd01 : d = 0 ∨ d = 1 := by rw [hd]; split <;> omega
    have hv : bitsToNat (c :: rest) = d * 2 ^ rest.length + bitsToNat rest :=
      bitsToNat_cons c rest
    have hdiv : bitsToNat (c :: rest) / 2 ^ rest.length = d := by
      rw [hv, mul_comm, Nat.mul_add_div (pow_pos (by omega) _),
        Nat.div_eq_of_lt hr, add_zero]
    have htest : (bitsToNat (c :: rest)).testBit rest.length = (d == 1) := by
      rw [Nat.testBit_to_div_mod, hdiv]
      rcases hd01 with h | h <;> rw [h] <;> decide
    have hmod : bitsToNat (c :: rest) % 2 ^ rest.length = bitsToNat rest := by
      rw [hv, add_comm, Nat.add_mul_mod_self_right, Nat.mod_eq_of_lt hr]
    simp only [List.length_cons, natBits]
    rw [List.cons.injEq]
    refine ⟨?_, ?_⟩
    · rw [htest]
      rcases hc with h | h <;> subst h <;> simp [hd, bitChar]
    · rw [natBits_congr rest.length _ (bitsToNat rest) ?_, ih hrest]
      intro j hj
      conv_rhs => rw [← hmod]
      rw [Nat.testBit_mod_two_pow]
      simp [hj]

theorem natBits_bitsToNat_len (s : List Char) (w : Nat) (hw : s.length = w)
    (hs : ∀ c ∈ s, IsBin c) : natBits w (bitsToNat s) = s := by
  subst hw
  exact natBits_bitsToNat s hs

theorem mod_two_pow_succ (n w : Nat) :
    n % 2 ^ (w + 1) = 2 ^ w * (n / 2 ^ w % 2) + n % 2 ^ w := by
  have h : n = 2 ^ (w + 1) * (n / 2 ^ w / 2) + (2 ^ w * (n / 2 ^ w % 2) + n % 2 ^ w) := by
    have h1 := Nat.div_add_mod n (2 ^ w)
    have h2 := Nat.div_add_mod (n / 2 ^ w) 2
    calc n = 2 ^ w * (n / 2 ^ w) + n % 2 ^ w := h1.symm
      _ = 2 ^ w * (2 * (n / 2 ^ w / 2) + n / 2 ^ w % 2) + n % 2 ^ w := by rw [h2]
      _ = 2 ^ (w + 1) * (n / 2 ^ w / 2) + (2 ^ w * (n / 2 ^ w % 2) + n % 2 ^ w) := by
          rw [pow_succ]; ring
  have hb : 2 ^ w * (n / 2 ^ w % 2) + n % 2 ^ w < 2 ^ (w + 1) := by
    have h3 : n / 2 ^ w % 2 ≤ 1 := by omega
    have h4 : n % 2 ^ w < 2 ^ w := Nat.mod_lt _ (pow_pos (by omega) _)
    have h5 : 2 ^ (w + 1) = 2 ^ w * 2 := pow_succ 2 w
    have h6 : 2 ^ w * (n / 2 ^ w % 2) ≤ 2 ^ w * 1 := Nat.mul_le_mul_left _ h3
    omega
  conv_lhs => rw [h]
  rw [Nat.mul_add_mod, Nat.mod_eq_of_lt hb]

theorem bitsToNat_natBits (w n : Nat) : bitsToNat (natBits w n) = n % 2 ^ w := by
  induction w generalizing n with
  | zero => simp [natBits, bitsToNat, Nat.mod_one]
  | succ w ih =>
    rw [natBits, bitsToNat_cons, natBits_length, ih, mod_two_pow_succ]
    congr 1
    cases hb : n.testBit w <;>
      simp_all [bitChar, Nat.testBit_to_div_mod, decide_eq_true_eq]

theorem natBits_range_map (w n : Nat) :
    natBits w n = (List.range w).map fun k => bitChar (n.testBit (w - 1 - k)) := by
  induction w with
  | zero => rfl
  | succ w ih =>
    rw [natBits, List.range_succ_eq_map, List.map_cons, List.map_map, ih]
    rw [List.cons.injEq]
    refine ⟨by simp, List.map_congr_left fun k _ => ?_⟩
    simp only [Function.comp_apply, Nat.succ_eq_add_one]
    congr 2
    omega

theorem bytesToBinaryString_length (e : List Nat) :
    (bytesToBinaryString e).length = 8 * e.length := by
  induction e with
  | nil => rfl
  | cons b e ih =>
    simp only [bytesToBinaryString, List.flatMap_cons] at *
    rw [List.length_append, natBits_length, ih, List.length_cons]
    ring

theorem bytesToBinaryString_binary (e : List Nat) :
    ∀ c ∈ bytesToBinaryString e, IsBin c := by
  intro c hc
  simp only [bytesToBinaryString, List.mem_flatMap] at hc
  obtain ⟨b, _, hb⟩ := hc
  exact natBits_binary 8 (b % 256) c hb

theorem bytesToBinaryString_getD (e : List Nat) (k : Nat) (hk : k < 8 * e.length) :
    (bytesToBinaryString e).getD k '0'
      = bitChar ((e.getD (k / 8) 0 % 256).testBit (7 - k % 8)) := by
  induction e generalizing k with
  | nil => simp at hk
  | cons b e ih =>
    simp only [bytesToBinaryString, List.flatMap_cons]
    by_cases h8 : k < 8
    · rw [List.getD_append _ _ _ _ (by rw [natBits_length]; omega)]
      rw [natBits_range_map]
      rw [List.getD_eq_getElem _ _ (by simpa using h8)]
      simp only [List.getElem_map, List.getElem_range]
      have hk8 : k / 8 = 0 := by omega
      have hk8' : k % 8 = k := by omega
      rw [hk8, hk8']
      simp
    · rw [List.getD_append_right _ _ _ _ (by rw [natBits_length]; omega)]
      rw [natBits_length]
      have hrec := ih (k - 8) (by simp at hk ⊢; omega)
      rw [show bytesToBinaryString e = e.flatMap (fun b => natBits 8 (b % 256)) from rfl]
        at hrec
      rw [hrec]
      have h1 : (k - 8) / 8 = k / 8 - 1 := by omega
      have h2 : (k - 8) % 8 = k % 8 := by omega
      have h3 : k / 8 ≠ 0 := by omega
      rw [h1, h2]
      congr 2
      cases hq : k / 8 with
      | zero => exact absurd hq h3
      | succ q => simp [List.getD_cons_succ]

theorem parseIntBin16_byte (b : Nat) (hb : b < 256) :
    parseIntBin16 (natBits 8 (b % 256)) = some (b : Int) := by
  rw [parseIntBin16_binary _ ?_ (by rw [natBits_length]; omega) (natBits_binary _ _)]
  · rw [bitsToNat_natBits]
    congr 1
    omega
  · have h := natBits_length 8 (b % 256)
    intro hnil
    rw [hnil] at h
    simp at h

theorem binToBytesGo_fuel : ∀ f1 f2 (s : List Char), s.length ≤ f1 →
    s.length ≤ f2 → binToBytesGo f1 s = binToBytesGo f2 s := by
  intro f1
  induction f1 with
  | zero =>
    intro f2 s h1 _
    have hs : s = [] := List.eq_nil_of_length_eq_zero (by omega)
    subst hs
    cases f2 <;> rfl
  | succ f1 ih =>
    intro f2 s h1 h2
    cases s with
    | nil => cases f2 <;> rfl
    | cons c rest =>
      cases f2 with
      | zero => simp at h2
      | succ f2 =>
        show (match parseIntBin16 ((c :: rest).take 8) with
          | none => Except.error Err.strconvError
          | some v => (binToBytesGo f1 ((c :: rest).drop 8)).map
              (fun slice => (v % 256).toNat :: slice)) = _
        rw [ih f2 ((c :: rest).drop 8) (by simp [List.length_drop] at *; omega)
          (by simp [List.length_drop] at *; omega)]
        rfl

theorem binToBytesLoop_ne_nil (s : List Char) (hne : s ≠ []) :
    binToBytesLoop s
      = match parseIntBin16 (s.take 8) with
        | none => .error .strconvError
        | some v => (binToBytesLoop (s.drop 8)).map
            (fun slice => (v % 256).toNat :: slice) := by
  cases s with
  | nil => exact absurd rfl hne
  | cons c rest =>
    show (match parseIntBin16 ((c :: rest).take 8) with
      | none => Except.error Err.strconvError
      | some v => (binToBytesGo rest.length ((c :: rest).drop 8)).map
          (fun slice => (v % 256).toNat :: slice)) = _
    rw [binToBytesGo_fuel rest.length ((c :: rest).drop 8).length ((c :: rest).drop 8)
      (by simp [List.length_drop]) (le_refl _)]
    rfl

theorem binToBytesLoop_roundtrip (e : List Nat) (he : ∀ b ∈ e, b < 256) :
    binToBytesLoop (bytesToBinaryString e) = .ok e := by
  induction e with
  | nil => rfl
  | cons b e ih =>
    have hb : b < 256 := he b (List.mem_cons_self b e)
    have hrest : ∀ x ∈ e, x < 256 := fun x hx => he x (List.mem_cons_of_mem b hx)
    have hsplit : bytesToBinaryString (b :: e)
        = natBits 8 (b % 256) ++ bytesToBinaryString e := by
      simp [bytesToBinaryString]
    have hlen : (natBits 8 (b % 256)).length = 8 := natBits_length _ _
    have hnn : bytesToBinaryString (b :: e) ≠ [] := by
      intro h
      have := bytesToBinaryString_length (b :: e)
      rw [h] at this
      simp at this
    rw [binToBytesLoop_ne_nil _ hnn, hsplit, List.take_left' hlen,
      List.drop_left' hlen, parseIntBin16_byte b hb, ih hrest]
    simp only [Except.map]
    congr 2
    omega

theorem binToBytesLoop_binary (k : Nat) :
    ∀ s : List Char, (∀ c ∈ s, IsBin c) → s.length = 8 * k →
      ∃ bs, binToBytesLoop s = .ok bs ∧ bs.length = k := by
  induction k with
  | zero =>
    intro s _ hlen
    have hs : s = [] := List.eq_nil_of_length_eq_zero (by omega)
    subst hs
    exact ⟨[], rfl, rfl⟩
  | succ k ih =>
    intro s hs hlen
    have hnn : s ≠ [] := by
      intro h
      rw [h] at hlen
      simp at hlen
    have htlen : (s.take 8).length = 8 := by
      rw [List.length_take]
      omega
    have htb : ∀ c ∈ s.take 8, IsBin c := fun c hc => hs c (List.mem_of_mem_take hc)
    have htnn : s.take 8 ≠ [] := by
      intro h
      rw [h] at htlen
      simp at htlen
    have hparse := parseIntBin16_binary (s.take 8) htnn (by omega) htb
    obtain ⟨bs, hbs, hbl⟩ := ih (s.drop 8)
      (fun c hc => hs c (List.mem_of_mem_drop hc))
      (by rw [List.length_drop]; omega)
    refine ⟨((bitsToNat (s.take 8) : Int) % 256).toNat :: bs, ?_, by simp [hbl]⟩
    rw [binToBytesLoop_ne_nil s hnn, hparse, hbs]
    rfl

theorem lexLt_cons (a b : Char) (as bs : List Char) :
    lexLt (a :: as) (b :: bs)
      = if a.toNat < b.toNat then true
        else if b.toNat < a.toNat then false
        else lexLt as bs := rfl

theorem lexLt_irrefl (s : List Char) : lexLt s s = false := by
  induction s with
  | nil => rfl
  | cons c s ih => rw [lexLt_cons, if_neg (by omega), if_neg (by omega), ih]

theorem lexLt_trans :
    ∀ a b c : List Char, lexLt a b = true → lexLt b c = true → lexLt a c = true := by
  intro a
  induction a with
  | nil =>
    intro b c hab hbc
    cases b with
    | nil => simp [lexLt] at hab
    | cons x xs =>
      cases c with
      | nil => simp [lexLt] at hbc
      | cons y ys => rfl
  | cons p ps ih =>
    intro b c hab hbc
    cases b with
    | nil => simp [lexLt] at hab
    | cons x xs =>
      cases c with
      | nil => simp [lexLt] at hbc
      | cons y ys =>
        rw [lexLt_cons] at hab hbc ⊢
        by_cases h1 : p.toNat < x.toNat
        · by_cases h2 : x.toNat < y.toNat
          · rw [if_pos (by omega)]
          · by_cases h4 : y.toNat < x.toNat
            · rw [if_neg h2, if_pos h4] at hbc
              exact absurd hbc (by simp)
            · rw [if_pos (by omega)]
        · by_cases h3 : x.toNat < p.toNat
          · rw [if_neg h1, if_pos h3] at hab
            exact absurd hab (by simp)
          · rw [if_neg h1, if_neg h3] at hab
            by_cases h2 : x.toNat < y.toNat
            · rw [if_pos (by omega)]
            · by_cases h4 : y.toNat < x.toNat
              · rw [if_neg h2, if_pos h4] at hbc
                exact absurd hbc (by simp)
              · rw [if_neg h2, if_neg h4] at hbc
                rw [if_neg (by omega), if_neg (by omega)]
                exact ih xs ys hab hbc

theorem searchLoopGo_le (f : Nat → Bool) :
    ∀ fuel i j, i ≤ j →
      i ≤ searchLoopGo f fuel i j ∧ searchLoopGo f fuel i j ≤ j := by
  intro fuel
  induction fuel with
  | zero => intro i j hij; exact ⟨le_refl i, hij⟩
  | succ fuel ih =>
    intro i j hij
    have he : searchLoopGo f (fuel + 1) i j
        = if i < j then
            (if f ((i + j) / 2) then searchLoopGo f fuel i ((i + j) / 2)
             else searchLoopGo f fuel ((i + j) / 2 + 1) j)
          else i := rfl
    rw [he]
    by_cases hlt : i < j
    · rw [if_pos hlt]
      cases hf : f ((i + j) / 2)
      · rw [if_neg (by simp)]
        have := ih ((i + j) / 2 + 1) j (by omega)
        omega
      · rw [if_pos rfl]
        have := ih i ((i + j) / 2) (by omega)
        omega
    · rw [if_neg hlt]
      exact ⟨le_refl i, hij⟩

theorem searchLoopGo_spec (f : Nat → Bool) (n : Nat)
    (hmono : ∀ k l, k ≤ l → l < n → f k = true → f l = true) :
    ∀ fuel i j, j - i ≤ fuel → i ≤ j → j ≤ n →
      (∀ k, k < i → f k = false) → (∀ k, j ≤ k → k < n → f k = true) →
      (∀ k, k < searchLoopGo f fuel i j → f k = false) ∧
      (∀ k, searchLoopGo f fuel i j ≤ k → k < n → f k = true) := by
  intro fuel
  induction fuel with
  | zero =>
    intro i j hfuel hij hjn hlo hhi
    have : i = j := by omega
    subst this
    exact ⟨hlo, hhi⟩
  | succ fuel ih =>
    intro i j hfuel hij hjn hlo hhi
    have he : searchLoopGo f (fuel + 1) i j
        = if i < j then
            (if f ((i + j) / 2) then searchLoopGo f fuel i ((i + j) / 2)
             else searchLoopGo f fuel ((i + j) / 2 + 1) j)
          else i := rfl
    rw [he]
    by_cases hlt : i < j
    · rw [if_pos hlt]
      have hm1 : i ≤ (i + j) / 2 := by omega
      have hm2 : (i + j) / 2 < j := by omega
      cases hf : f ((i + j) / 2)
      · rw [if_neg (by simp)]
        refine ih ((i + j) / 2 + 1) j (by omega) (by omega) hjn ?_ hhi
        intro k hk
        rcases Nat.lt_or_ge k i with hki | hki
        · exact hlo k hki
        · cases hfk : f k
          · rfl
          · exact absurd (hmono k ((i + j) / 2) (by omega) (by omega) hfk) (by simp [hf])
      · rw [if_pos rfl]
        refine ih i ((i + j) / 2) (by omega) (by omega) (by omega) hlo ?_
        intro k hk hkn
        exact hmono ((i + j) / 2) k hk hkn hf
    · rw [if_neg hlt]
      have : i = j := by omega
      subst this
      exact ⟨hlo, hhi⟩

theorem stringBinarySearch_some (wl : List (List Char)) (elem : List Char)
    (idx : Nat) (h : stringBinarySearch wl elem = some idx) :
    idx < wl.length ∧ wl.getD idx [] = elem := by
  simp only [stringBinarySearch] at h
  split at h
  case isTrue hc =>
    obtain ⟨hne, heq⟩ := hc
    have hle := (searchLoopGo_le (fun i => ! lexLt (wl.getD i []) elem)
      (wl.length - 0) 0 wl.length (by omega)).2
    have hrw : sortSearchStrings wl elem
        = searchLoopGo (fun i => ! lexLt (wl.getD i []) elem)
          (wl.length - 0) 0 wl.length := rfl
    rw [← hrw] at hle
    rw [Option.some.injEq] at h
    subst h
    exact ⟨by omega, heq⟩
  case isFalse => exact absurd h (by simp)

theorem stringBinarySearch_not_mem (wl : List (List Char)) (elem : List Char)
    (h : elem ∉ wl) : stringBinarySearch wl elem = none := by
  cases hs : stringBinarySearch wl elem with
  | none => rfl
  | some idx =>
    obtain ⟨hlt, heq⟩ := stringBinarySearch_some wl elem idx hs
    rw [List.getD_eq_getElem _ _ hlt] at heq
    exact absurd (heq ▸ List.getElem_mem hlt) h

theorem stringBinarySearch_self (wl : List (List Char))
    (hchain : List.Chain' (fun a b => lexLt a b = true) wl)
    (t : Nat) (ht : t < wl.length) :
    stringBinarySearch wl (wl.getD t []) = some t := by
  haveI : IsTrans (List Char) (fun a b => lexLt a b = true) := ⟨lexLt_trans⟩
  have hpair := List.chain'_iff_pairwise.mp hchain
  rw [List.pairwise_iff_getElem] at hpair
  set elem := wl.getD t [] with helem
  set f : Nat → Bool := fun i => ! lexLt (wl.getD i []) elem with hf
  have hmono : ∀ k l, k ≤ l → l < wl.length → f k = true → f l = true := by
    intro k l hkl hln hk
    rcases Nat.eq_or_lt_of_le hkl with h | h
    · subst h; exact hk
    · cases hfl : f l
      · exfalso
        have hll : lexLt (wl.getD l []) elem = true := by
          have : (! lexLt (wl.getD l []) elem) = false := hfl
          cases hll' : lexLt (wl.getD l []) elem
          · rw [hll'] at this; exact absurd this (by simp)
          · rfl
        have hkl' : lexLt (wl.getD k []) (wl.getD l []) = true := by
          rw [List.getD_eq_getElem _ _ (by omega), List.getD_eq_getElem _ _ hln]
          exact hpair k l (by omega) hln h
        have htr := lexLt_trans _ _ _ hkl' hll
        have hfk : f k = false := by
          show (! lexLt (wl.getD k []) elem) = false
          rw [htr]
          rfl
        rw [hfk] at hk
        exact absurd hk (by simp)
      · rfl
  have hspec := searchLoopGo_spec f wl.length hmono (wl.length - 0) 0 wl.length
    (by omega) (by omega) (le_refl _) (by omega) (by omega)
  have hbounds := searchLoopGo_le f (wl.length - 0) 0 wl.length (by omega)
  set r : Nat := searchLoopGo f (wl.length - 0) 0 wl.length with hr
  have hft : f t = true := by
    simp only [hf, helem]
    rw [lexLt_irrefl]
    rfl
  have hrt : r = t := by
    rcases Nat.lt_trichotomy r t with h | h | h
    · have hfr : f r = true := hspec.2 r (le_refl r) (by omega)
      have hlt' : lexLt (wl.getD r []) elem = true := by
        rw [helem, List.getD_eq_getElem _ _ (by omega), List.getD_eq_getElem _ _ ht]
        exact hpair r t (by omega) ht h
      have hfr' : f r = false := by
        show (! lexLt (wl.getD r []) elem) = false
        rw [hlt']
        rfl
      rw [hfr'] at hfr
      exact absurd hfr (by simp)
    · exact h
    · exact absurd hft (by simp [hspec.1 t h])
  have hsearch : sortSearchStrings wl elem = r := rfl
  unfold stringBinarySearch
  rw [hsearch, hrt, if_pos ⟨by omega, rfl⟩]

theorem natBits_mod_self (w n : Nat) : natBits w (n % 2 ^ w) = natBits w n := by
  refine natBits_congr w _ _ fun j hj => ?_
  rw [Nat.testBit_mod_two_pow]
  simp [hj]

theorem lexLt_natBits (w : Nat) :
    ∀ i j, i < 2 ^ w → j < 2 ^ w → i < j →
      lexLt (natBits w i) (natBits w j) = true := by
  induction w with
  | zero => intro i j hi hj hij; omega
  | succ w ih =>
    intro i j hi hj hij
    have h2 : 2 ^ (w + 1) = 2 * 2 ^ w := by rw [pow_succ]; ring
    have hp : 0 < 2 ^ w := pow_pos (by omega) w
    have htb : ∀ m, m < 2 ^ (w + 1) →
        m.testBit w = decide (2 ^ w ≤ m) := by
      intro m hm
      rw [Nat.testBit_to_div_mod]
      rcases Nat.lt_or_ge m (2 ^ w) with h | h
      · rw [Nat.div_eq_of_lt h]
        simp
        omega
      · have : m / 2 ^ w = 1 := by
          rw [Nat.div_eq_sub_div hp h, Nat.div_eq_of_lt (by omega)]
        rw [this]
        simp
        omega
    rw [natBits, natBits, lexLt_cons, htb i hi, htb j hj]
    rcases Nat.lt_or_ge i (2 ^ w) with hi' | hi' <;>
      rcases Nat.lt_or_ge j (2 ^ w) with hj' | hj'
    · rw [decide_eq_false (by omega), decide_eq_false (by omega)]
      rw [if_neg (by simp [bitChar]), if_neg (by simp [bitChar])]
      exact ih i j hi' hj' hij
    · rw [decide_eq_false (by omega), decide_eq_true (by omega)]
      rw [if_pos (by simp [bitChar])]
    · omega
    · rw [decide_eq_true (by omega), decide_eq_true (by omega)]
      rw [if_neg (by simp [bitChar]), if_neg (by simp [bitChar])]
      rw [← natBits_mod_self w i, ← natBits_mod_self w j]
      have hmi : i % 2 ^ w = i - 2 ^ w := by
        rw [Nat.mod_eq_sub_mod hi', Nat.mod_eq_of_lt (by omega)]
      have hmj : j % 2 ^ w = j - 2 ^ w := by
        rw [Nat.mod_eq_sub_mod hj', Nat.mod_eq_of_lt (by omega)]
      rw [hmi, hmj]
      exact ih _ _ (by omega) (by omega) (by omega)

theorem stdWl_spec : WordlistSpec stdWl := by
  refine ⟨by simp [stdWl], ?_, ?_⟩
  · rw [stdWl, List.chain'_map]
    rw [show (2048 : Nat) = 2047 + 1 from rfl, List.chain'_range_succ]
    intro m hm
    exact lexLt_natBits 11 m (m + 1) (by omega) (by omega) (by omega)
  · intro w hw
    rw [stdWl, List.mem_map] at hw
    obtain ⟨i, _, rfl⟩ := hw
    constructor
    · intro h
      have := natBits_length 11 i
      rw [h] at this
      simp at this
    · intro h
      rcases natBits_binary 11 i ' ' h with h' | h' <;> simp at h'

theorem splitOnSpace_cons (c : Char) (rest : List Char) :
    splitOnSpace (c :: rest)
      = if c = ' ' then [] :: splitOnSpace rest
        else match splitOnSpace rest with
          | [] => [[c]]
          | w :: ws => (c :: w) :: ws := rfl

theorem splitOnSpace_no_space (w : List Char) (hw : ' ' ∉ w) :
    splitOnSpace w = [w] := by
  induction w with
  | nil => rfl
  | cons c rest ih =>
    have hc : c ≠ ' ' := fun h => hw (h ▸ List.mem_cons_self c rest)
    rw [splitOnSpace_cons, if_neg hc, ih fun h => hw (List.mem_cons_of_mem c h)]

theorem splitOnSpace_append_space (w s : List Char) (hw : ' ' ∉ w) :
    splitOnSpace (w ++ ' ' :: s) = w :: splitOnSpace s := by
  induction w with
  | nil =>
    show splitOnSpace (' ' :: s) = [] :: splitOnSpace s
    rw [splitOnSpace_cons, if_pos rfl]
  | cons c rest ih =>
    have hc : c ≠ ' ' := fun h => hw (h ▸ List.mem_cons_self c rest)
    show splitOnSpace (c :: (rest ++ ' ' :: s)) = _
    rw [splitOnSpace_cons, if_neg hc, ih fun h => hw (List.mem_cons_of_mem c h)]

theorem splitOnSpace_joinWords (ws : List (List Char)) (hne : ws ≠ [])
    (hw : ∀ w ∈ ws, ' ' ∉ w) : splitOnSpace (joinWords ws) = ws := by
  induction ws with
  | nil => exact absurd rfl hne
  | cons w rest ih =>
    cases rest with
    | nil =>
      show splitOnSpace w = [w]
      exact splitOnSpace_no_space w (hw w (List.mem_cons_self w []))
    | cons x xs =>
      show splitOnSpace (w ++ ' ' :: joinWords (x :: xs)) = w :: x :: xs
      rw [splitOnSpace_append_space _ _ (hw w (List.mem_cons_self w _)),
        ih (by simp) fun v hv => hw v (List.mem_cons_of_mem w hv)]

theorem flatten_chunks (u : Nat) :
    ∀ n (l : List Char), l.length = u * n →
      ((List.range n).map fun i => (l.drop (i * u)).take u).flatten = l := by
  intro n
  induction n with
  | zero =>
    intro l hl
    have : l = [] := List.eq_nil_of_length_eq_zero (by omega)
    subst this
    rfl
  | succ n ih =>
    intro l hl
    rw [List.range_succ_eq_map, List.map_cons, List.map_map, List.flatten_cons]
    have htail : (List.range n).map ((fun i => (l.drop (i * u)).take u) ∘ Nat.succ)
        = (List.range n).map fun i => ((l.drop u).drop (i * u)).take u := by
      refine List.map_congr_left fun k _ => ?_
      simp only [Function.comp_apply, List.drop_drop]
      congr 2
      rw [Nat.succ_mul]
      ring
    rw [htail, ih (l.drop u) (by rw [List.length_drop, hl, Nat.mul_succ]; omega)]
    simp only [Nat.zero_mul, List.drop_zero]
    exact List.take_append_drop u l

theorem beBytes_length (k v : Nat) : (beBytes k v).length = k := by
  induction k generalizing v with
  | zero => rfl
  | succ k ih => simp [beBytes, ih]

theorem beBytes_lt (k v : Nat) : ∀ b ∈ beBytes k v, b < 256 := by
  induction k generalizing v with
  | zero => simp [beBytes]
  | succ k ih =>
    intro b hb
    rcases List.mem_cons.mp hb with h | h
    · subst h
      exact Nat.mod_lt _ (by omega)
    · exact ih v b h

theorem sha256_length (msg : List Nat) : (sha256 msg).length = 32 := by
  simp [sha256, sha2StWords, beBytes_length]

theorem sha512_length (msg : List Nat) : (sha512 msg).length = 64 := by
  simp [sha512, sha2StWords, beBytes_length]

theorem sha256_bytes_lt (msg : List Nat) : ∀ b ∈ sha256 msg, b < 256 := by
  intro b hb
  simp only [sha256, List.mem_flatMap] at hb
  obtain ⟨w, _, hw⟩ := hb
  exact beBytes_lt 4 w b hw

theorem entropyChecksumBinStr_length (e : List Nat) (h : e.length ≤ 1024) :
    (entropyChecksumBinStr e).length = e.length / 4 := by
  rw [entropyChecksumBinStr, List.length_take, bytesToBinaryString_length,
    sha256_length]
  omega

theorem entropyChecksumBinStr_binary (e : List Nat) :
    ∀ c ∈ entropyChecksumBinStr e, IsBin c := fun c hc =>
  bytesToBinaryString_binary _ c (List.mem_of_mem_take hc)

/-- The full bit string an entropy encodes to: entropy bits then checksum
bits (statement-side shorthand). -/
def encBits (e : List Nat) : List Char :=
  bytesToBinaryString e ++ entropyChecksumBinStr e

/-- The 11-bit group of `encBits e` at position `i`, as an unsigned integer
(most significant bit first). -/
def encWordIdx (e : List Nat) (i : Nat) : Nat :=
  bitsToNat (((encBits e).drop (i * 11)).take 11)

/-- The words an entropy encodes to: one wordlist entry per 11-bit group. -/
def encWords (wl : List (List Char)) (e : List Nat) : List (List Char) :=
  (List.range ((encBits e).length / 11)).map fun i => wl.getD (encWordIdx e i) []

theorem encBits_def (e : List Nat) :
    bytesToBinaryString e ++ entropyChecksumBinStr e = encBits e := rfl

theorem validateEntropyBitLen_cases (e : List Nat)
    (h : validateEntropyBitLen (e.length * 8) = true) :
    e.length = 16 ∨ e.length = 20 ∨ e.length = 24 ∨ e.length = 28 ∨
      e.length = 32 := by
  simp only [validateEntropyBitLen, Bool.or_eq_true, decide_eq_true_eq] at h
  omega

theorem encBits_length (e : List Nat)
    (h : validateEntropyBitLen (e.length * 8) = true) :
    (encBits e).length = 33 * (e.length / 4) := by
  have hL := validateEntropyBitLen_cases e h
  rw [encBits, List.length_append, bytesToBinaryString_length,
    entropyChecksumBinStr_length e (by omega)]
  omega

theorem encBits_binary (e : List Nat) : ∀ c ∈ encBits e, IsBin c := by
  intro c hc
  rcases List.mem_append.mp hc with h | h
  · exact bytesToBinaryString_binary e c h
  · exact entropyChecksumBinStr_binary e c h

theorem encChunk_length (e : List Nat)
    (_h : validateEntropyBitLen (e.length * 8) = true)
    (i : Nat) (hi : i < (encBits e).length / 11) :
    (((encBits e).drop (i * 11)).take 11).length = 11 := by
  rw [List.length_take, List.length_drop]
  omega

theorem encWordIdx_lt (e : List Nat)
    (h : validateEntropyBitLen (e.length * 8) = true)
    (i : Nat) (hi : i < (encBits e).length / 11) : encWordIdx e i < 2048 := by
  have hlt := bitsToNat_lt (((encBits e).drop (i * 11)).take 11)
  rw [encChunk_length e h i hi] at hlt
  exact hlt

theorem mnemonicFromEntropy_ok (wl : List (List Char)) (e : List Nat)
    (h : validateEntropyBitLen (e.length * 8) = true) :
    mnemonicFromEntropy wl e = .ok (joinWords (encWords wl e)) := by
  simp only [mnemonicFromEntropy, if_pos h, encBits_def]
  rw [Except.ok.injEq]
  congr 1
  refine List.map_congr_left fun i hi => ?_
  rw [List.mem_range] at hi
  have hchunk : (((encBits e).drop (i * 11)).take 11).length = 11 :=
    encChunk_length e h i hi
  have hbin : ∀ c ∈ ((encBits e).drop (i * 11)).take 11, IsBin c := fun c hc =>
    encBits_binary e c (List.mem_of_mem_drop (List.mem_of_mem_take hc))
  have hne : ((encBits e).drop (i * 11)).take 11 ≠ [] := by
    intro hn
    rw [hn] at hchunk
    simp at hchunk
  rw [parseIntBin16_binary _ hne (by omega) hbin]
  simp only [Option.getD_some, Int.toNat_ofNat]
  rfl

theorem wordsBits_map (wl : List (List Char)) (l : List Nat)
    (g : Nat → List Char) (v : Nat → Nat)
    (h : ∀ a ∈ l, stringBinarySearch wl (g a) = some (v a)) :
    wordsBits wl (l.map g) = .ok ((l.map fun a => natBits 11 (v a)).flatten) := by
  induction l with
  | nil => rfl
  | cons a rest ih =>
    simp only [List.map_cons, wordsBits, h a (List.mem_cons_self a rest),
      ih fun x hx => h x (List.mem_cons_of_mem a hx)]
    rfl

theorem getBinaryStrings_encode (wl : List (List Char)) (e : List Nat)
    (hwl : WordlistSpec wl)
    (h : validateEntropyBitLen (e.length * 8) = true) :
    getBinaryStrings wl (joinWords (encWords wl e))
      = .ok (bytesToBinaryString e, entropyChecksumBinStr e) := by
  obtain ⟨hwlen, hchain, hwords⟩ := hwl
  have hL := validateEntropyBitLen_cases e h
  have hblen := encBits_length e h
  have hcount : (encBits e).length / 11 = 3 * (e.length / 4) := by
    rw [hblen]
    omega
  have hmem : ∀ i, i < (encBits e).length / 11 →
      wl.getD (encWordIdx e i) [] ∈ wl := by
    intro i hi
    have := encWordIdx_lt e h i hi
    rw [List.getD_eq_getElem _ _ (by omega)]
    exact List.getElem_mem _
  have hsplit : splitOnSpace (joinWords (encWords wl e)) = encWords wl e := by
    refine splitOnSpace_joinWords _ ?_ ?_
    · rw [encWords]
      intro hnil
      have := congrArg List.length hnil
      simp only [List.length_map, List.length_range, List.length_nil] at this
      omega
    · intro w hw
      rw [encWords, List.mem_map] at hw
      obtain ⟨i, hi, rfl⟩ := hw
      rw [List.mem_range] at hi
      exact (hwords _ (hmem i hi)).2
  have hsearch : ∀ i ∈ List.range ((encBits e).length / 11),
      stringBinarySearch wl (wl.getD (encWordIdx e i) []) = some (encWordIdx e i) := by
    intro i hi
    rw [List.mem_range] at hi
    exact stringBinarySearch_self wl hchain _ (by have := encWordIdx_lt e h i hi; omega)
  have hbits : wordsBits wl (encWords wl e) = .ok (encBits e) := by
    rw [encWords, wordsBits_map wl _ _ _ hsearch]
    have hnb : ∀ i ∈ List.range ((encBits e).length / 11),
        natBits 11 (encWordIdx e i) = ((encBits e).drop (i * 11)).take 11 := by
      intro i hi
      rw [List.mem_range] at hi
      have hchunk := encChunk_length e h i hi
      have hbin : ∀ c ∈ ((encBits e).drop (i * 11)).take 11, IsBin c := fun c hc =>
        encBits_binary e c (List.mem_of_mem_drop (List.mem_of_mem_take hc))
      rw [encWordIdx]
      exact natBits_bitsToNat_len _ 11 hchunk hbin
    rw [List.map_congr_left hnb, Except.ok.injEq]
    exact flatten_chunks 11 _ (encBits e) (by omega)
  have hvalid : wordsNumValid (encWords wl e).length = true := by
    have : (encWords wl e).length = 3 * (e.length / 4) := by
      rw [encWords, List.length_map, List.length_range, hcount]
    rw [this]
    simp only [wordsNumValid, Bool.or_eq_true, decide_eq_true_eq]
    omega
  have hebl : (bytesToBinaryString e).length = 8 * e.length :=
    bytesToBinaryString_length e
  have hidx : (encBits e).length - (encBits e).length / 33
      = (bytesToBinaryString e).length := by
    rw [hblen, hebl]
    omega
  simp only [getBinaryStrings, hsplit, hvalid, if_pos, hbits, Except.map]
  rw [Except.ok.injEq, Prod.mk.injEq]
  constructor
  · rw [hidx]
    rw [show encBits e = bytesToBinaryString e ++ entropyChecksumBinStr e from rfl]
    exact List.take_left _ _
  · rw [hidx]
    rw [show encBits e = bytesToBinaryString e ++ entropyChecksumBinStr e from rfl]
    exact List.drop_left _ _

theorem binaryStringToBytes_roundtrip (e : List Nat) (he : ∀ b ∈ e, b < 256) :
    binaryStringToBytes (bytesToBinaryString e) = .ok e := by
  rw [binaryStringToBytes,
    if_neg (by rw [bytesToBinaryString_length]; omega)]
  exact binToBytesLoop_roundtrip e he

theorem toEntropy_encode (wl : List (List Char)) (e : List Nat)
    (hwl : WordlistSpec wl) (hb : ∀ b ∈ e, b < 256)
    (h : validateEntropyBitLen (e.length * 8) = true) :
    toEntropy wl (joinWords (encWords wl e)) = .ok e := by
  rw [toEntropy, getBinaryStrings_encode wl e hwl h]
  simp only [binaryStringToBytes_roundtrip e hb]
  rw [if_neg fun hne => hne rfl]

theorem validate_encode (wl : List (List Char)) (e : List Nat)
    (hwl : WordlistSpec wl) (hb : ∀ b ∈ e, b < 256)
    (h : validateEntropyBitLen (e.length * 8) = true) :
    validate wl (joinWords (encWords wl e)) = .ok () := by
  rw [validate, getBinaryStrings_encode wl e hwl h]
  simp only [binaryStringToBytes_roundtrip e hb]
  rw [if_neg fun hne => hne rfl]

theorem wordsBits_error (wl : List (List Char)) :
    ∀ ws : List (List Char), (∃ w ∈ ws, stringBinarySearch wl w = none) →
      wordsBits wl ws = .error .invalidWord := by
  intro ws
  induction ws with
  | nil => rintro ⟨w, hw, _⟩; simp at hw
  | cons w ws ih =>
    rintro ⟨x, hx, hxn⟩
    rcases List.mem_cons.mp hx with h | h
    · subst h
      simp only [wordsBits, hxn]
    · cases hsw : stringBinarySearch wl w with
      | none => simp only [wordsBits, hsw]
      | some idx =>
        simp only [wordsBits, hsw, ih ⟨x, h, hxn⟩]
        rfl

theorem wordsBits_ok_length (wl : List (List Char)) :
    ∀ ws bits, wordsBits wl ws = .ok bits → bits.length = 11 * ws.length := by
  intro ws
  induction ws with
  | nil =>
    intro bits h
    rw [show wordsBits wl [] = .ok [] from rfl, Except.ok.injEq] at h
    subst h
    rfl
  | cons w ws ih =>
    intro bits h
    rw [wordsBits] at h
    cases hsw : stringBinarySearch wl w with
    | none => rw [hsw] at h; exact absurd h (by simp)
    | some idx =>
      rw [hsw] at h
      cases hrec : wordsBits wl ws with
      | error e2 => rw [hrec] at h; exact absurd h (by simp [Except.map])
      | ok rest =>
        rw [hrec] at h
        simp only [Except.map, Except.ok.injEq] at h
        subst h
        rw [List.length_append, natBits_length, ih rest hrec, List.length_cons]
        ring

theorem wordsBits_ok_binary (wl : List (List Char)) :
    ∀ ws bits, wordsBits wl ws = .ok bits → ∀ c ∈ bits, IsBin c := by
  intro ws
  induction ws with
  | nil =>
    intro bits h
    rw [show wordsBits wl [] = .ok [] from rfl, Except.ok.injEq] at h
    subst h
    simp
  | cons w ws ih =>
    intro bits h
    rw [wordsBits] at h
    cases hsw : stringBinarySearch wl w with
    | none => rw [hsw] at h; exact absurd h (by simp)
    | some idx =>
      rw [hsw] at h
      cases hrec : wordsBits wl ws with
      | error e2 => rw [hrec] at h; exact absurd h (by simp [Except.map])
      | ok rest =>
        rw [hrec] at h
        simp only [Except.map, Except.ok.injEq] at h
        subst h
        intro c hc
        rcases List.mem_append.mp hc with h' | h'
        · exact natBits_binary 11 idx c h'
        · exact ih rest hrec c h'

theorem getBinaryStrings_ok (wl : List (List Char)) (m : List Char)
    (ent chk : List Char) (h : getBinaryStrings wl m = .ok (ent, chk)) :
    wordsNumValid (splitOnSpace m).length = true ∧
      ∃ bits, wordsBits wl (splitOnSpace m) = .ok bits ∧
        ent = bits.take (bits.length - bits.length / 33) ∧
        chk = bits.drop (bits.length - bits.length / 33) := by
  rw [getBinaryStrings] at h
  by_cases hv : wordsNumValid (splitOnSpace m).length = true
  · refine ⟨hv, ?_⟩
    rw [if_pos hv] at h
    cases hw : wordsBits wl (splitOnSpace m) with
    | error e2 => rw [hw] at h; exact absurd h (by simp [Except.map])
    | ok bits =>
      rw [hw] at h
      simp only [Except.map, Except.ok.injEq, Prod.mk.injEq] at h
      exact ⟨bits, rfl, h.1.symm, h.2.symm⟩
  · rw [if_neg hv] at h
    exact absurd h (by simp)

theorem hmacSha512_length (key msg : List Nat) :
    (hmacSha512 key msg).length = 64 := sha512_length _

theorem pbkdf2Iter_length (pw : List Nat) :
    ∀ n t u, t.length = 64 → ((pbkdf2Iter pw (t, u) n).1).length = 64 := by
  intro n
  induction n with
  | zero => intro t u ht; exact ht
  | succ n ih =>
    intro t u ht
    show ((pbkdf2Iter pw
      (t.zipWith (· ^^^ ·) (hmacSha512 pw u), hmacSha512 pw u) n).1).length = 64
    refine ih _ _ ?_
    rw [List.length_zipWith, hmacSha512_length, ht]
    omega

theorem pbkdf2_length (pw salt : List Nat) (iter : Nat) :
    (pbkdf2HmacSha512 pw salt iter 64).length = 64 := by
  have hb : (pbkdf2Block pw salt iter 1).length = 64 := by
    rw [pbkdf2Block]
    exact pbkdf2Iter_length pw (iter - 1) _ _ (hmacSha512_length _ _)
  rw [pbkdf2HmacSha512]
  rw [show (64 + 63) / 64 = 1 from rfl]
  rw [show List.range 1 = [0] from rfl]
  simp only [List.map_cons, List.map_nil, List.flatten_cons, List.flatten_nil,
    List.append_nil, List.length_take, hb]
  omega

theorem binToBytesGo_succ_cons (fuel : Nat) (c : Char) (rest : List Char) :
    binToBytesGo (fuel + 1) (c :: rest)
      = match parseIntBin16 ((c :: rest).take 8) with
        | none => .error .strconvError
        | some v => (binToBytesGo fuel ((c :: rest).drop 8)).map
            (fun slice => (v % 256).toNat :: slice) := rfl

theorem binToBytesGo_ne_binaryString :
    ∀ fuel s, binToBytesGo fuel s ≠ .error .binaryString := by
  intro fuel
  induction fuel with
  | zero =>
    intro s
    cases s <;> simp [binToBytesGo]
  | succ fuel ih =>
    intro s
    cases s with
    | nil => simp [binToBytesGo]
    | cons c rest =>
      rw [binToBytesGo_succ_cons]
      cases hp : parseIntBin16 ((c :: rest).take 8) with
      | none =>
        intro hcon
        exact Err.noConfusion (Except.error.inj hcon)
      | some v =>
        simp only
        cases hrec : binToBytesGo fuel ((c :: rest).drop 8) with
        | error e2 =>
          intro hcon
          simp only [Except.map] at hcon
          rw [Except.error.injEq] at hcon
          exact ih ((c :: rest).drop 8) (by rw [hrec, hcon])
        | ok bs => simp [Except.map]

theorem utf8Bytes_append (s t : List Char) :
    utf8Bytes (s ++ t) = utf8Bytes s ++ utf8Bytes t := by
  rw [utf8Bytes, utf8Bytes, utf8Bytes, List.flatMap_append]

/-- C1: for every entropy byte sequence whose bit length is one of 128, 160,
192, 224 or 256, encoding with MnemonicFromEntropy and then decoding the
resulting mnemonic with ToEntropy returns exactly the original entropy
bytes, for any wordlist satisfying the spec's wordlist contract. -/
theorem C1_roundtrip (wl : List (List Char)) (e : List Nat)
    (hwl : WordlistSpec wl) (hb : ∀ b ∈ e, b < 256)
    (hlen : e.length * 8 = 128 ∨ e.length * 8 = 160 ∨ e.length * 8 = 192 ∨
      e.length * 8 = 224 ∨ e.length * 8 = 256) :
    ∃ m, mnemonicFromEntropy wl e = .ok m ∧ toEntropy wl m = .ok e := by
  have h : validateEntropyBitLen (e.length * 8) = true := by
    simp only [validateEntropyBitLen, Bool.or_eq_true, decide_eq_true_eq]
    omega
  exact ⟨_, mnemonicFromEntropy_ok wl e h, toEntropy_encode wl e hwl hb h⟩

/-- Witness for C1: the spec wordlist stdWl and the 16-byte entropy
0, 1, ..., 15. -/
theorem C1_roundtrip_witness :
    WordlistSpec stdWl ∧ (∀ b ∈ List.range 16, b < 256) ∧
      (List.range 16).length * 8 = 128 ∧
      ∃ m, mnemonicFromEntropy stdWl (List.range 16) = .ok m ∧
        toEntropy stdWl m = .ok (List.range 16) :=
  ⟨stdWl_spec, by decide, by decide,
    C1_roundtrip stdWl (List.range 16) stdWl_spec (by decide) (.inl (by decide))⟩

/-- C2: for every entropy byte sequence (per the data model, one of the five
standardized lengths), the checksum bit string computed by
entropyChecksumBinStr is exactly the first len/4 bits, most significant bit
first, of the SHA-256 digest of the entropy bytes. -/
theorem C2_checksum_bits (e : List Nat) (_hb : ∀ b ∈ e, b < 256)
    (hlen : e.length = 16 ∨ e.length = 20 ∨ e.length = 24 ∨ e.length = 28 ∨
      e.length = 32) :
    entropyChecksumBinStr e
      = (List.range (e.length / 4)).map fun k =>
          bitChar (((sha256 e).getD (k / 8) 0).testBit (7 - k % 8)) := by
  have hcl : (entropyChecksumBinStr e).length = e.length / 4 :=
    entropyChecksumBinStr_length e (by omega)
  refine List.ext_getElem ?_ fun k h1 h2 => ?_
  · rw [hcl, List.length_map, List.length_range]
  · rw [List.getElem_map, List.getElem_range]
    have hk : k < e.length / 4 := by rw [hcl] at h1; exact h1
    have hsl : (sha256 e).length = 32 := sha256_length e
    have hk' : k < 8 * (sha256 e).length := by omega
    have hgd : (entropyChecksumBinStr e).getD k '0'
        = (bytesToBinaryString (sha256 e)).getD k '0' := by
      rw [entropyChecksumBinStr]
      rw [List.getD_eq_getElem _ _ (by rw [← entropyChecksumBinStr]; omega)]
      rw [List.getElem_take]
      rw [List.getD_eq_getElem _ _ (by rw [bytesToBinaryString_length]; omega)]
    have hbyte : (sha256 e).getD (k / 8) 0 < 256 := by
      have hmem : (sha256 e).getD (k / 8) 0 ∈ sha256 e := by
        rw [List.getD_eq_getElem _ _ (by omega)]
        exact List.getElem_mem _
      exact sha256_bytes_lt e _ hmem
    have hfin := bytesToBinaryString_getD (sha256 e) k hk'
    rw [Nat.mod_eq_of_lt hbyte] at hfin
    rw [← List.getD_eq_getElem (entropyChecksumBinStr e) '0' h1, hgd, hfin]

/-- Witness for C2 at the 16-byte entropy 0, 1, ..., 15. -/
theorem C2_checksum_bits_witness :
    (∀ b ∈ List.range 16, b < 256) ∧ (List.range 16).length = 16 ∧
      entropyChecksumBinStr (List.range 16)
        = (List.range ((List.range 16).length / 4)).map fun k =>
            bitChar (((sha256 (List.range 16)).getD (k / 8) 0).testBit (7 - k % 8)) :=
  ⟨by decide, by decide,
    C2_checksum_bits (List.range 16) (by decide) (.inl (by decide))⟩

/-- C3: for valid-length entropy, MnemonicFromEntropy concatenates the
entropy bits (8 per byte, MSB-first) with the checksum bits, slices the
result left to right into consecutive 11-bit groups that exactly cover it,
reads each group as an unsigned integer in 0..2047, maps it to the word at
that position of the wordlist, and joins the words with single spaces. -/
theorem C3_encode_structure (wl : List (List Char)) (e : List Nat)
    (_hb : ∀ b ∈ e, b < 256)
    (hlen : e.length * 8 = 128 ∨ e.length * 8 = 160 ∨ e.length * 8 = 192 ∨
      e.length * 8 = 224 ∨ e.length * 8 = 256) :
    mnemonicFromEntropy wl e
        = .ok (joinWords ((List.range
              ((bytesToBinaryString e ++ entropyChecksumBinStr e).length / 11)).map
            fun i => wl.getD
              (bitsToNat (((bytesToBinaryString e ++ entropyChecksumBinStr e).drop
                (i * 11)).take 11)) []))
      ∧ 11 * ((bytesToBinaryString e ++ entropyChecksumBinStr e).length / 11)
          = (bytesToBinaryString e ++ entropyChecksumBinStr e).length
      ∧ ∀ i < (bytesToBinaryString e ++ entropyChecksumBinStr e).length / 11,
          bitsToNat (((bytesToBinaryString e ++ entropyChecksumBinStr e).drop
            (i * 11)).take 11) < 2048 := by
  have h : validateEntropyBitLen (e.length * 8) = true := by
    simp only [validateEntropyBitLen, Bool.or_eq_true, decide_eq_true_eq]
    omega
  have hL := validateEntropyBitLen_cases e h
  refine ⟨?_, ?_, ?_⟩
  · rw [mnemonicFromEntropy_ok wl e h]
    simp only [encBits_def]
    rfl
  · rw [encBits_def, encBits_length e h]
    omega
  · intro i hi
    rw [encBits_def] at hi
    exact encWordIdx_lt e h i hi

/-- Witness for C3 at the 16-byte entropy 0, 1, ..., 15. -/
theorem C3_encode_structure_witness :
    (∀ b ∈ List.range 16, b < 256) ∧ (List.range 16).length * 8 = 128 ∧
      (mnemonicFromEntropy stdWl (List.range 16)
          = .ok (joinWords ((List.range
                ((bytesToBinaryString (List.range 16)
                  ++ entropyChecksumBinStr (List.range 16)).length / 11)).map
              fun i => stdWl.getD
                (bitsToNat (((bytesToBinaryString (List.range 16)
                  ++ entropyChecksumBinStr (List.range 16)).drop
                  (i * 11)).take 11)) []))
        ∧ 11 * ((bytesToBinaryString (List.range 16)
              ++ entropyChecksumBinStr (List.range 16)).length / 11)
            = (bytesToBinaryString (List.range 16)
              ++ entropyChecksumBinStr (List.range 16)).length
        ∧ ∀ i < (bytesToBinaryString (List.range 16)
              ++ entropyChecksumBinStr (List.range 16)).length / 11,
            bitsToNat (((bytesToBinaryString (List.range 16)
              ++ entropyChecksumBinStr (List.range 16)).drop
              (i * 11)).take 11) < 2048) :=
  ⟨by decide, by decide,
    C3_encode_structure stdWl (List.range 16) (by decide) (.inl (by decide))⟩

/-- C4: for every mnemonic whose words pass the count check and the wordlist
lookups, the rebuilt bit stream is split so that the checksum is the
trailing total/33 bits and the entropy the leading total - total/33 bits. -/
theorem C4_decode_split (wl : List (List Char)) (m : List Char)
    (ent chk : List Char) (h : getBinaryStrings wl m = .ok (ent, chk)) :
    ∃ bits, wordsBits wl (splitOnSpace m) = .ok bits ∧
      ent = bits.take (bits.length - bits.length / 33) ∧
      chk = bits.drop (bits.length - bits.length / 33) ∧
      chk.length = bits.length / 33 ∧
      ent.length = bits.length - bits.length / 33 ∧
      ent ++ chk = bits := by
  obtain ⟨hv, bits, hw, hent, hchk⟩ := getBinaryStrings_ok wl m ent chk h
  refine ⟨bits, hw, hent, hchk, ?_, ?_, ?_⟩
  · rw [hchk, List.length_drop]
    omega
  · rw [hent, List.length_take]
    omega
  · rw [hent, hchk]
    exact List.take_append_drop _ _

/-- Witness for C4 at the mnemonic encoding the 16-byte entropy 0, ..., 15
over stdWl. -/
theorem C4_decode_split_witness :
    getBinaryStrings stdWl (joinWords (encWords stdWl (List.range 16)))
        = .ok (bytesToBinaryString (List.range 16),
               entropyChecksumBinStr (List.range 16)) ∧
      ∃ bits, wordsBits stdWl
          (splitOnSpace (joinWords (encWords stdWl (List.range 16)))) = .ok bits ∧
        bytesToBinaryString (List.range 16)
          = bits.take (bits.length - bits.length / 33) ∧
        entropyChecksumBinStr (List.range 16)
          = bits.drop (bits.length - bits.length / 33) ∧
        (entropyChecksumBinStr (List.range 16)).length = bits.length / 33 ∧
        (bytesToBinaryString (List.range 16)).length
          = bits.length - bits.length / 33 ∧
        bytesToBinaryString (List.range 16)
          ++ entropyChecksumBinStr (List.range 16) = bits :=
  have hg := getBinaryStrings_encode stdWl (List.range 16) stdWl_spec (by decide)
  ⟨hg, C4_decode_split stdWl (joinWords (encWords stdWl (List.range 16))) _ _ hg⟩

/-- C5: a mnemonic string whose space-split word count is not 12, 15, 18, 21
or 24 makes ToEntropy, Validate and GenerateSeed all fail with the
words-count error, regardless of the individual words. -/
theorem C5_word_count_gate (wl : List (List Char)) (m p : List Char)
    (h : (splitOnSpace m).length ∉ ([12, 15, 18, 21, 24] : List Nat)) :
    toEntropy wl m = .error .wordsNum ∧ validate wl m = .error .wordsNum ∧
      generateSeed wl m p = .error .wordsNum := by
  have hv : wordsNumValid (splitOnSpace m).length = false := by
    cases hvb : wordsNumValid (splitOnSpace m).length
    · rfl
    · exfalso
      simp only [wordsNumValid, Bool.or_eq_true, decide_eq_true_eq] at hvb
      simp only [List.mem_cons, List.not_mem_nil, or_false, not_or] at h
      omega
  have hg : getBinaryStrings wl m = .error .wordsNum := by
    rw [getBinaryStrings, if_neg (by rw [hv]; simp)]
  have ht : toEntropy wl m = .error .wordsNum := by rw [toEntropy, hg]
  have hvl : validate wl m = .error .wordsNum := by rw [validate, hg]
  exact ⟨ht, hvl, by rw [generateSeed, hvl]⟩

/-- Witness for C5 at the two-word mnemonic "hello world". -/
theorem C5_word_count_gate_witness :
    (splitOnSpace ['h', 'e', 'l', 'l', 'o', ' ', 'w', 'o', 'r', 'l', 'd']).length
        ∉ ([12, 15, 18, 21, 24] : List Nat) ∧
      toEntropy stdWl ['h', 'e', 'l', 'l', 'o', ' ', 'w', 'o', 'r', 'l', 'd']
        = .error .wordsNum ∧
      validate stdWl ['h', 'e', 'l', 'l', 'o', ' ', 'w', 'o', 'r', 'l', 'd']
        = .error .wordsNum ∧
      generateSeed stdWl ['h', 'e', 'l', 'l', 'o', ' ', 'w', 'o', 'r', 'l', 'd'] []
        = .error .wordsNum :=
  ⟨by decide, C5_word_count_gate stdWl _ [] (by decide)⟩

/-- C6: a mnemonic with a valid word count containing at least one word
absent from the wordlist makes decoding and validation fail with the
invalid-word error, even if all other words are valid. -/
theorem C6_unknown_word (wl : List (List Char)) (m : List Char)
    (hcount : (splitOnSpace m).length ∈ ([12, 15, 18, 21, 24] : List Nat))
    (hmiss : ∃ w ∈ splitOnSpace m, w ∉ wl) :
    toEntropy wl m = .error .invalidWord ∧
      validate wl m = .error .invalidWord := by
  have hv : wordsNumValid (splitOnSpace m).length = true := by
    simp only [List.mem_cons, List.not_mem_nil, or_false] at hcount
    simp only [wordsNumValid, Bool.or_eq_true, decide_eq_true_eq]
    omega
  obtain ⟨w, hwmem, hwabs⟩ := hmiss
  have hwb : wordsBits wl (splitOnSpace m) = .error .invalidWord :=
    wordsBits_error wl _ ⟨w, hwmem, stringBinarySearch_not_mem wl w hwabs⟩
  have hg : getBinaryStrings wl m = .error .invalidWord := by
    rw [getBinaryStrings, if_pos hv, hwb]
    rfl
  exact ⟨by rw [toEntropy, hg], by rw [validate, hg]⟩

/-- Witness for C6 at a 12-word mnemonic whose words are all the string "2",
absent from stdWl. -/
theorem C6_unknown_word_witness :
    (splitOnSpace (joinWords (List.replicate 12 ['2']))).length
        ∈ ([12, 15, 18, 21, 24] : List Nat) ∧
      (∃ w ∈ splitOnSpace (joinWords (List.replicate 12 ['2'])), w ∉ stdWl) ∧
      toEntropy stdWl (joinWords (List.replicate 12 ['2']))
        = .error .invalidWord ∧
      validate stdWl (joinWords (List.replicate 12 ['2']))
        = .error .invalidWord :=
  ⟨by decide, ⟨['2'], by decide, by decide⟩,
    C6_unknown_word stdWl _ (by decide) ⟨['2'], by decide, by decide⟩⟩

/-- C7: for every mnemonic that validates and every passphrase, GenerateSeed
returns the PBKDF2-HMAC-SHA512 output of 64 bytes with password the UTF-8
bytes of the mnemonic text, salt the ASCII bytes of "mnemonic" followed by
the UTF-8 bytes of the passphrase, and 2048 iterations; with an empty
passphrase the salt is exactly the 8 ASCII bytes of "mnemonic". -/
theorem C7_seed_derivation (wl : List (List Char)) (m p : List Char)
    (h : validate wl m = .ok ()) :
    generateSeed wl m p
        = .ok (pbkdf2HmacSha512 (utf8Bytes m)
            (utf8Bytes (seedSaltMod ++ p)) 2048 64)
      ∧ (pbkdf2HmacSha512 (utf8Bytes m)
          (utf8Bytes (seedSaltMod ++ p)) 2048 64).length = 64
      ∧ utf8Bytes (seedSaltMod ++ p)
          = [109, 110, 101, 109, 111, 110, 105, 99] ++ utf8Bytes p
      ∧ (p = [] → utf8Bytes (seedSaltMod ++ p)
          = [109, 110, 101, 109, 111, 110, 105, 99]) := by
  have hsalt : utf8Bytes (seedSaltMod ++ p)
      = [109, 110, 101, 109, 111, 110, 105, 99] ++ utf8Bytes p := by
    rw [utf8Bytes_append]
    rw [show utf8Bytes seedSaltMod = [109, 110, 101, 109, 111, 110, 105, 99]
      from by decide]
  refine ⟨by rw [generateSeed, h], pbkdf2_length _ _ _, hsalt, fun hp => ?_⟩
  subst hp
  rw [hsalt]
  rfl

/-- Witness for C7 at the mnemonic encoding the 16-byte entropy 0, ..., 15
over stdWl, with the empty passphrase. -/
theorem C7_seed_derivation_witness :
    validate stdWl (joinWords (encWords stdWl (List.range 16))) = .ok () ∧
      (generateSeed stdWl (joinWords (encWords stdWl (List.range 16))) []
          = .ok (pbkdf2HmacSha512
              (utf8Bytes (joinWords (encWords stdWl (List.range 16))))
              (utf8Bytes (seedSaltMod ++ [])) 2048 64)
        ∧ (pbkdf2HmacSha512
            (utf8Bytes (joinWords (encWords stdWl (List.range 16))))
            (utf8Bytes (seedSaltMod ++ [])) 2048 64).length = 64
        ∧ utf8Bytes (seedSaltMod ++ [])
            = [109, 110, 101, 109, 111, 110, 105, 99] ++ utf8Bytes []
        ∧ ([] = ([] : List Char) → utf8Bytes (seedSaltMod ++ [])
            = [109, 110, 101, 109, 111, 110, 105, 99])) :=
  have hv := validate_encode stdWl (List.range 16) stdWl_spec (by decide) (by decide)
  ⟨hv, C7_seed_derivation stdWl (joinWords (encWords stdWl (List.range 16))) [] hv⟩

/-- C8: GenerateSeed fails exactly when Validate fails on the mnemonic, with
the same error value, and succeeds exactly when Validate succeeds. -/
theorem C8_seed_error_propagation (wl : List (List Char)) (m p : List Char) :
    (∀ er : Err, generateSeed wl m p = .error er ↔ validate wl m = .error er)
      ∧ ((∃ s, generateSeed wl m p = .ok s) ↔ validate wl m = .ok ()) := by
  cases hv : validate wl m with
  | error e2 =>
    have hseed : generateSeed wl m p = .error e2 := by rw [generateSeed, hv]
    constructor
    · intro er
      rw [hseed]
      simp
    · rw [hseed]
      constructor
      · rintro ⟨s, hs⟩
        exact absurd hs (by simp)
      · intro hc
        exact absurd hc (by simp)
  | ok u =>
    cases u
    have hseed : generateSeed wl m p
        = .ok (pbkdf2HmacSha512 (utf8Bytes m)
            (utf8Bytes (seedSaltMod ++ p)) 2048 64) := by
      rw [generateSeed, hv]
    constructor
    · intro er
      rw [hseed]
      constructor
      · intro hc
        exact absurd hc (by simp)
      · intro hc
        exact absurd hc (by simp)
    · rw [hseed]
      exact ⟨fun _ => rfl, fun _ => ⟨_, rfl⟩⟩

/-- C9 counterexample: the 8-character string "aaaaaaaa" has length a
multiple of 8, yet binaryStringToBytes fails on it (with the strconv parse
error, not BinaryStringInvalid), refuting the claim that every input whose
length is a multiple of 8 succeeds. -/
theorem C9_counterexample :
    (List.replicate 8 'a').length % 8 = 0 ∧
      binaryStringToBytes (List.replicate 8 'a') = .error .strconvError := by
  constructor
  · decide
  · decide

/-- C9 as amended: binaryStringToBytes returns the BinaryStringInvalid error
exactly when the length is not a multiple of 8, and on strings of binary
digits whose length is a multiple of 8 it succeeds with one byte per 8
characters. -/
theorem C9_amended (s : List Char) :
    (binaryStringToBytes s = .error .binaryString ↔ s.length % 8 ≠ 0)
      ∧ ((∀ c ∈ s, IsBin c) → s.length % 8 = 0 →
          ∃ bs, binaryStringToBytes s = .ok bs ∧ bs.length = s.length / 8) := by
  constructor
  · constructor
    · intro h
      intro hmod
      rw [binaryStringToBytes, if_neg (by omega)] at h
      exact binToBytesGo_ne_binaryString s.length s h
    · intro hmod
      rw [binaryStringToBytes, if_pos hmod]
  · intro hbin hmod
    obtain ⟨bs, hbs, hlen⟩ := binToBytesLoop_binary (s.length / 8) s hbin (by omega)
    exact ⟨bs, by rw [binaryStringToBytes, if_neg (by omega)]; exact hbs, hlen⟩

/-- Witness for C9 (amended) at the binary string "00000101 11001000". -/
theorem C9_amended_witness :
    (binaryStringToBytes ['0', '0', '0', '0', '0', '1', '0', '1',
        '1', '1', '0', '0', '1', '0', '0', '0'] = .error .binaryString
      ↔ (['0', '0', '0', '0', '0', '1', '0', '1',
          '1', '1', '0', '0', '1', '0', '0', '0'] : List Char).length % 8 ≠ 0) ∧
    ∃ bs, binaryStringToBytes ['0', '0', '0', '0', '0', '1', '0', '1',
        '1', '1', '0', '0', '1', '0', '0', '0'] = .ok bs ∧
      bs.length = (['0', '0', '0', '0', '0', '1', '0', '1',
        '1', '1', '0', '0', '1', '0', '0', '0'] : List Char).length / 8 :=
  ⟨(C9_amended _).1, (C9_amended _).2 (by decide) (by decide)⟩

/-- C10: whenever the decode split succeeds, the entropy bit-string has
length a multiple of 8 (and consists of binary digits), so the
byte-conversion step inside ToEntropy and Validate never takes its error
branch. -/
theorem C10_entropy_bytes_ok (wl : List (List Char)) (m : List Char)
    (ent chk : List Char) (h : getBinaryStrings wl m = .ok (ent, chk)) :
    ent.length % 8 = 0 ∧ ∃ bs, binaryStringToBytes ent = .ok bs := by
  obtain ⟨hv, bits, hw, hent, hchk⟩ := getBinaryStrings_ok wl m ent chk h
  have hlen := wordsBits_ok_length wl _ bits hw
  have hbin := wordsBits_ok_binary wl _ bits hw
  simp only [wordsNumValid, Bool.or_eq_true, decide_eq_true_eq] at hv
  have hentlen : ent.length % 8 = 0 := by
    rw [hent, List.length_take]
    omega
  have hentbin : ∀ c ∈ ent, IsBin c := fun c hc =>
    hbin c (by rw [hent] at hc; exact List.mem_of_mem_take hc)
  obtain ⟨bs, hbs, _⟩ := binToBytesLoop_binary (ent.length / 8) ent hentbin
    (by omega)
  refine ⟨hentlen, bs, ?_⟩
  rw [binaryStringToBytes, if_neg (by omega)]
  exact hbs

/-- Witness for C10 at the mnemonic encoding the 16-byte entropy 0, ..., 15
over stdWl. -/
theorem C10_entropy_bytes_ok_witness :
    getBinaryStrings stdWl (joinWords (encWords stdWl (List.range 16)))
        = .ok (bytesToBinaryString (List.range 16),
               entropyChecksumBinStr (List.range 16)) ∧
      (bytesToBinaryString (List.range 16)).length % 8 = 0 ∧
      ∃ bs, binaryStringToBytes (bytesToBinaryString (List.range 16)) = .ok bs :=
  have hg := getBinaryStrings_encode stdWl (List.range 16) stdWl_spec (by decide)
  ⟨hg, C10_entropy_bytes_ok stdWl (joinWords (encWords stdWl (List.range 16)))
    _ _ hg⟩

end Bip39
